import Mathlib

set_option maxRecDepth 20000

/-!
Verification of the long-short equity template
(src/template_algorithms/long_short_equity_template.py).

The repository is a single script built on a hosted trading platform.
The script's own computations (the momentum window arithmetic, the module
constants, the rebalance body) are embedded directly from the source.
The platform primitives it calls (factor rank, zscore, top, bottom,
pipeline screening) ship with the platform and are not in the repository;
those are modelled from the specification and marked as such in their
doc comments.

Numbers are embedded as exact rationals; real-number division that the
source performs without a zero guard is embedded as an Option-valued
operation that is none exactly where the division is undefined.
-/

namespace LongShortEquity

/-- Negative indexing into a price window, as in the source's
prices[-k] on an array whose last element is the most recent close:
for a window p of length n this is p[n - k] (and the default 0 when the
window is shorter than k). -/
def back (p : List ℚ) (k : ℕ) : ℚ := p.getD (p.length - k) 0

/-- Embedding of Momentum.compute (source lines 56-58):
out = (prices[-21] - prices[-252])/prices[-252]
    - (prices[-1] - prices[-21])/prices[-21].
The source divides with no zero guard; the two divisions are undefined
when a denominator price is zero, embedded here as the none case. -/
def momentumCompute (p : List ℚ) : Option ℚ :=
  if back p 252 = 0 ∨ back p 21 = 0 then none
  else some ((back p 21 - back p 252) / back p 252 -
             (back p 1 - back p 21) / back p 21)

/-- The vectorised compute call writes one output cell per asset from
that asset's own price column. -/
def momentumAll (prices : ℕ → List ℚ) (a : ℕ) : Option ℚ :=
  momentumCompute (prices a)

/-- A 252-day window of constant price 4, a well-defined input for the
momentum factor. -/
def constSeries : List ℚ := List.replicate 252 4

/-- A 252-day window whose oldest price (prices[-252]) is zero. -/
def zeroStartSeries : List ℚ := 0 :: List.replicate 251 1

/-- C1: for every asset with a price series of length at least 252 whose
prices at indices t-252 and t-21 are non-zero, the momentum factor is
exactly (p[t-21] - p[t-252])/p[t-252] - (p[t-1] - p[t-21])/p[t-21], and
it is computed independently per asset: the output for an asset depends
only on that asset's own price series. -/
theorem momentum_closed_form (prices : ℕ → List ℚ) (a : ℕ)
    (hlen : 252 ≤ (prices a).length)
    (h252 : back (prices a) 252 ≠ 0) (h21 : back (prices a) 21 ≠ 0) :
    momentumAll prices a =
      some ((back (prices a) 21 - back (prices a) 252) / back (prices a) 252 -
            (back (prices a) 1 - back (prices a) 21) / back (prices a) 21) ∧
    ∀ prices2 : ℕ → List ℚ, prices2 a = prices a →
      momentumAll prices2 a = momentumAll prices a := by
  constructor
  · unfold momentumAll momentumCompute
    rw [if_neg]
    push_neg
    exact ⟨h252, h21⟩
  · intro prices2 h
    unfold momentumAll
    rw [h]

/-- Witness for C1 at a concrete constant price window. -/
theorem momentum_closed_form_witness :
    momentumAll (fun _ => constSeries) 0 =
      some ((back constSeries 21 - back constSeries 252) / back constSeries 252 -
            (back constSeries 1 - back constSeries 21) / back constSeries 21) ∧
    ∀ prices2 : ℕ → List ℚ, prices2 0 = constSeries →
      momentumAll prices2 0 = momentumAll (fun _ => constSeries) 0 :=
  momentum_closed_form (fun _ => constSeries) 0 (by decide) (by decide) (by decide)

/-- C6: there is a price series with a zero denominator price on which
the momentum factor is undefined (divide-by-zero), with no fallback
value produced. -/
theorem momentum_divide_by_zero :
    ∃ p : List ℚ, 252 ≤ p.length ∧ (back p 252 = 0 ∨ back p 21 = 0) ∧
      momentumCompute p = none := by
  refine ⟨zeroStartSeries, by decide, Or.inl (by decide), ?_⟩
  unfold momentumCompute
  rw [if_pos]
  exact Or.inl (by decide)

/-! ### Factor Normalizer

The rank and zscore factor methods used at source lines 94-98 are
platform primitives, not code of this repository. They are modelled
from the specification (section 4.2): ordinal rank among masked assets,
ties broken by the stable order of the masked universe, then the
z-score of the rank across the masked cohort. -/

/-- Modelled from the spec: the stable strict order used by ordinal
ranking of the score list s. Position j precedes position i when its
score is smaller, or the scores tie and j comes first. -/
def rkBefore (s : List ℚ) (j i : ℕ) : Prop :=
  s.getD j 0 < s.getD i 0 ∨ (s.getD j 0 = s.getD i 0 ∧ j < i)

instance (s : List ℚ) (j i : ℕ) : Decidable (rkBefore s j i) := by
  unfold rkBefore; infer_instance

/-- Modelled from the spec: the ordinal rank (1-based) of the asset at
position i of the masked score list s: one plus the number of positions
that precede it. -/
def rankAt (s : List ℚ) (i : ℕ) : ℕ :=
  1 + ((Finset.range s.length).filter (fun j => rkBefore s j i)).card

/-- Modelled from the spec: the list of ordinal ranks of a masked score
list, position by position. -/
def ranksOf (s : List ℚ) : List ℕ := (List.range s.length).map (rankAt s)

/-- Modelled from the spec: the mean of the ranks across the masked
cohort (the mean subtracted by the z-score). -/
def rankMean (s : List ℚ) : ℚ :=
  ((ranksOf s).map (fun r : ℕ => (r : ℚ))).sum / s.length

/-- Modelled from the spec: the centered ranks, rank minus rank mean.
The z-score of position i is zNum s at i divided by the standard
deviation, the square root of rankVar s. -/
def zNum (s : List ℚ) : List ℚ :=
  (ranksOf s).map (fun r : ℕ => (r : ℚ) - rankMean s)

/-- Modelled from the spec: the population variance of the ranks across
the masked cohort (the square of the standard deviation the z-score
divides by). -/
def rankVar (s : List ℚ) : ℚ :=
  ((zNum s).map (fun c => c ^ 2)).sum / s.length

/-- Modelled from the spec: the Factor Normalizer. Given the universe
list (in its stable order), a mask, and a factor snapshot (none for
assets missing underlying data), keep the masked assets whose score is
defined and pair each with its centered rank; the z-score of a kept
asset is its centered rank divided by the common standard deviation
of the cohort ranks. Assets outside the mask are excluded entirely. -/
def normalizeF (u : List ℕ) (m : ℕ → Bool) (x : ℕ → Option ℚ) : List (ℕ × ℚ) :=
  let mu := u.filter (fun a => m a && (x a).isSome)
  let s := mu.map (fun a => (x a).getD 0)
  mu.zip (zNum s)

theorem rkBefore_irrefl (s : List ℚ) (i : ℕ) : ¬ rkBefore s i i := by
  unfold rkBefore
  simp

theorem rkBefore_trans (s : List ℚ) {k j i : ℕ}
    (h1 : rkBefore s k j) (h2 : rkBefore s j i) : rkBefore s k i := by
  unfold rkBefore at h1 h2 ⊢
  rcases h1 with h1 | ⟨h1e, h1l⟩ <;> rcases h2 with h2 | ⟨h2e, h2l⟩
  · exact Or.inl (h1.trans h2)
  · exact Or.inl (h2e ▸ h1)
  · exact Or.inl (h1e ▸ h2)
  · exact Or.inr ⟨h1e.trans h2e, h1l.trans h2l⟩

theorem rkBefore_total (s : List ℚ) {j i : ℕ} (h : j ≠ i) :
    rkBefore s j i ∨ rkBefore s i j := by
  unfold rkBefore
  rcases lt_trichotomy (s.getD j 0) (s.getD i 0) with hlt | heq | hgt
  · exact Or.inl (Or.inl hlt)
  · rcases Nat.lt_or_ge j i with hj | hj
    · exact Or.inl (Or.inr ⟨heq, hj⟩)
    · exact Or.inr (Or.inr ⟨heq.symm, lt_of_le_of_ne hj (Ne.symm h)⟩)
  · exact Or.inr (Or.inl hgt)

theorem rankAt_lt_of_rkBefore (s : List ℚ) {j i : ℕ} (hj : j < s.length)
    (hb : rkBefore s j i) : rankAt s j < rankAt s i := by
  unfold rankAt
  have hsub : (Finset.range s.length).filter (fun k => rkBefore s k j) ⊆
      (Finset.range s.length).filter (fun k => rkBefore s k i) := by
    intro k hk
    rw [Finset.mem_filter] at hk ⊢
    exact ⟨hk.1, rkBefore_trans s hk.2 hb⟩
  have hss : (Finset.range s.length).filter (fun k => rkBefore s k j) ⊂
      (Finset.range s.length).filter (fun k => rkBefore s k i) := by
    rw [Finset.ssubset_iff_of_subset hsub]
    refine ⟨j, ?_, ?_⟩
    · rw [Finset.mem_filter]
      exact ⟨Finset.mem_range.mpr hj, hb⟩
    · rw [Finset.mem_filter]
      push_neg
      intro _
      exact rkBefore_irrefl s j
  have := Finset.card_lt_card hss
  omega

theorem rankAt_injOn (s : List ℚ) {j i : ℕ} (hj : j < s.length)
    (hi : i < s.length) (h : rankAt s j = rankAt s i) : j = i := by
  by_contra hne
  rcases rkBefore_total s hne with hb | hb
  · exact absurd h (Nat.ne_of_lt (rankAt_lt_of_rkBefore s hj hb))
  · exact absurd h.symm (Nat.ne_of_lt (rankAt_lt_of_rkBefore s hi hb))

theorem rankAt_pos (s : List ℚ) (i : ℕ) : 1 ≤ rankAt s i := by
  unfold rankAt
  omega

theorem rankAt_le_length (s : List ℚ) {i : ℕ} (hi : i < s.length) :
    rankAt s i ≤ s.length := by
  unfold rankAt
  have hsub : (Finset.range s.length).filter (fun j => rkBefore s j i) ⊆
      (Finset.range s.length).erase i := by
    intro k hk
    rw [Finset.mem_filter] at hk
    rw [Finset.mem_erase]
    refine ⟨?_, hk.1⟩
    intro hki
    exact rkBefore_irrefl s i (hki ▸ hk.2)
  have hcard := Finset.card_le_card hsub
  have herase : ((Finset.range s.length).erase i).card = s.length - 1 := by
    rw [Finset.card_erase_of_mem (Finset.mem_range.mpr hi), Finset.card_range]
  omega

/-- The ranks of the n masked positions are exactly the integers 1..n. -/
theorem rankAt_image (s : List ℚ) :
    (Finset.range s.length).image (rankAt s) = Finset.Icc 1 s.length := by
  apply Finset.eq_of_subset_of_card_le
  · intro k hk
    rw [Finset.mem_image] at hk
    obtain ⟨i, hi, rfl⟩ := hk
    rw [Finset.mem_range] at hi
    rw [Finset.mem_Icc]
    exact ⟨rankAt_pos s i, rankAt_le_length s hi⟩
  · rw [Nat.card_Icc]
    rw [Finset.card_image_of_injOn]
    · rw [Finset.card_range]; omega
    · intro a ha b hb hab
      rw [Finset.coe_range, Set.mem_Iio] at ha hb
      exact rankAt_injOn s ha hb hab

/-- Sums of any function of the ranks reduce to sums over 1..n. -/
theorem sum_over_ranks (s : List ℚ) (f : ℕ → ℚ) :
    ∑ i ∈ Finset.range s.length, f (rankAt s i) =
      ∑ k ∈ Finset.Icc 1 s.length, f k := by
  rw [← rankAt_image s]
  rw [Finset.sum_image]
  intro a ha b hb hab
  rw [Finset.mem_range] at ha hb
  exact rankAt_injOn s ha hb hab

theorem sum_Icc_cast (n : ℕ) :
    ∑ k ∈ Finset.Icc 1 n, (k : ℚ) = n * (n + 1) / 2 := by
  induction n with
  | zero => simp
  | succ n ih =>
    rw [Finset.sum_Icc_succ_top (by omega), ih]
    push_cast
    ring

theorem sum_Icc_sq_cast (n : ℕ) :
    ∑ k ∈ Finset.Icc 1 n, (k : ℚ) ^ 2 = n * (n + 1) * (2 * n + 1) / 6 := by
  induction n with
  | zero => simp
  | succ n ih =>
    rw [Finset.sum_Icc_succ_top (by omega), ih]
    push_cast
    ring

theorem list_range_map_sum (f : ℕ → ℚ) (n : ℕ) :
    ((List.range n).map f).sum = ∑ i ∈ Finset.range n, f i := by
  induction n with
  | zero => simp
  | succ n ih =>
    rw [List.range_succ, List.map_append, List.sum_append,
        Finset.sum_range_succ, ih]
    simp

theorem ranksOf_length (s : List ℚ) : (ranksOf s).length = s.length := by
  unfold ranksOf
  simp

theorem zNum_length (s : List ℚ) : (zNum s).length = s.length := by
  unfold zNum
  rw [List.length_map, ranksOf_length]

theorem ranks_cast_sum (s : List ℚ) :
    ((ranksOf s).map (fun r : ℕ => (r : ℚ))).sum =
      s.length * (s.length + 1) / 2 := by
  unfold ranksOf
  rw [List.map_map, list_range_map_sum]
  simp only [Function.comp_def]
  rw [sum_over_ranks s (fun r : ℕ => (r : ℚ))]
  exact sum_Icc_cast s.length

theorem rankMean_eq (s : List ℚ) (h : 1 ≤ s.length) :
    rankMean s = ((s.length : ℚ) + 1) / 2 := by
  unfold rankMean
  rw [ranks_cast_sum]
  have hn : (s.length : ℚ) ≠ 0 := by
    have hz : s.length ≠ 0 := by omega
    exact_mod_cast hz
  field_simp
  ring

theorem zNum_sum (s : List ℚ) (h : 1 ≤ s.length) :
    (zNum s).sum = 0 := by
  unfold zNum ranksOf
  rw [List.map_map, list_range_map_sum]
  simp only [Function.comp_def]
  have : ∑ i ∈ Finset.range s.length,
      ((rankAt s i : ℚ) - rankMean s) =
      (∑ i ∈ Finset.range s.length, (rankAt s i : ℚ)) -
        s.length * rankMean s := by
    rw [Finset.sum_sub_distrib, Finset.sum_const, Finset.card_range,
        nsmul_eq_mul]
  rw [this]
  rw [sum_over_ranks s (fun r : ℕ => (r : ℚ)), sum_Icc_cast, rankMean_eq s h]
  have hn : (s.length : ℚ) ≠ 0 := by
    have hz : s.length ≠ 0 := by omega
    exact_mod_cast hz
  field_simp

theorem zNum_sq_sum (s : List ℚ) (h : 1 ≤ s.length) :
    ((zNum s).map (fun c => c ^ 2)).sum =
      s.length * ((s.length : ℚ) ^ 2 - 1) / 12 := by
  unfold zNum ranksOf
  rw [List.map_map, List.map_map, list_range_map_sum]
  simp only [Function.comp_def]
  have hexp : ∀ i : ℕ, ((rankAt s i : ℚ) - rankMean s) ^ 2 =
      (rankAt s i : ℚ) ^ 2 - 2 * rankMean s * (rankAt s i : ℚ) +
        rankMean s ^ 2 := by
    intro i
    ring
  rw [Finset.sum_congr rfl (fun i _ => hexp i)]
  rw [Finset.sum_add_distrib, Finset.sum_sub_distrib, ← Finset.mul_sum,
      Finset.sum_const, Finset.card_range, nsmul_eq_mul]
  rw [sum_over_ranks s (fun r : ℕ => (r : ℚ) ^ 2),
      sum_over_ranks s (fun r : ℕ => (r : ℚ)), sum_Icc_sq_cast, sum_Icc_cast,
      rankMean_eq s h]
  have hn : (s.length : ℚ) ≠ 0 := by
    have hz : s.length ≠ 0 := by omega
    exact_mod_cast hz
  field_simp
  ring

theorem rankVar_eq (s : List ℚ) (h : 1 ≤ s.length) :
    rankVar s = ((s.length : ℚ) ^ 2 - 1) / 12 := by
  unfold rankVar
  rw [zNum_sq_sum s h]
  have hn : (s.length : ℚ) ≠ 0 := by
    have hz : s.length ≠ 0 := by omega
    exact_mod_cast hz
  field_simp
  ring

theorem rankVar_pos (s : List ℚ) (h : 2 ≤ s.length) :
    0 < rankVar s := by
  rw [rankVar_eq s (by omega)]
  have h2 : (2 : ℚ) ≤ (s.length : ℚ) := by exact_mod_cast h
  nlinarith

theorem sum_map_div_cast (l : List ℚ) (d : ℝ) :
    (l.map (fun c : ℚ => (c : ℝ) / d)).sum = ((l.sum : ℚ) : ℝ) / d := by
  induction l with
  | nil => simp
  | cons a t ih =>
    rw [List.map_cons, List.sum_cons, List.sum_cons, ih]
    push_cast
    rw [add_div]

theorem sum_map_sq_div_cast (l : List ℚ) (d : ℝ) :
    (l.map (fun c : ℚ => ((c : ℝ) / d) ^ 2)).sum =
      (((l.map (fun c => c ^ 2)).sum : ℚ) : ℝ) / d ^ 2 := by
  induction l with
  | nil => simp
  | cons a t ih =>
    rw [List.map_cons, List.sum_cons, List.map_cons, List.sum_cons, ih]
    push_cast
    rw [add_div, div_pow]

theorem sq_sum_of_z (l : List ℚ) (d : ℝ) :
    ((l.map (fun c : ℚ => (c : ℝ) / d)).map (fun z : ℝ => z ^ 2)).sum =
      (((l.map (fun c => c ^ 2)).sum : ℚ) : ℝ) / d ^ 2 := by
  induction l with
  | nil => simp
  | cons a t ih =>
    simp only [List.map_cons, List.sum_cons, ih]
    push_cast
    rw [add_div, div_pow]

theorem zNum_sq_sum_eq_var_mul (s : List ℚ) (h : 1 ≤ s.length) :
    ((zNum s).map (fun c => c ^ 2)).sum = rankVar s * s.length := by
  unfold rankVar
  have hn : (s.length : ℚ) ≠ 0 := by
    have hz : s.length ≠ 0 := by omega
    exact_mod_cast hz
  field_simp

/-- C2 (amended): for every factor snapshot and every mask keeping at
least two assets, the Factor Normalizer keeps exactly the masked assets
(assets outside the mask receive no score at all) and assigns them the
centered ordinal ranks, and the z-scores of the ranks - each centered
rank divided by the standard deviation sd of the cohort ranks - have
mean 0 and population variance 1 across the masked universe. For a
singleton mask the variance is 0, so the claim is amended from
non-empty masks to masks of at least two assets. -/
theorem normalizer_standardization (u : List ℕ) (m : ℕ → Bool) (x : ℕ → ℚ)
    (h2 : 2 ≤ (u.filter m).length) (sd : ℝ)
    (hsd : sd = Real.sqrt ((rankVar ((u.filter m).map x) : ℚ) : ℝ))
    (zs : List ℝ)
    (hzs : zs = (zNum ((u.filter m).map x)).map (fun c : ℚ => (c : ℝ) / sd)) :
    ((normalizeF u m (fun b => some (x b))).map Prod.fst = u.filter m) ∧
    ((normalizeF u m (fun b => some (x b))).map Prod.snd =
      zNum ((u.filter m).map x)) ∧
    (∀ a ∈ u, m a = false →
      a ∉ (normalizeF u m (fun b => some (x b))).map Prod.fst) ∧
    zs.sum / (zs.length : ℝ) = 0 ∧
    (zs.map (fun z => (z - zs.sum / (zs.length : ℝ)) ^ 2)).sum /
      (zs.length : ℝ) = 1 := by
  subst hzs
  have hN : normalizeF u m (fun b => some (x b)) =
      (u.filter m).zip (zNum ((u.filter m).map x)) := by
    unfold normalizeF
    simp only [Option.isSome_some, Bool.and_true, Option.getD_some]
  set s : List ℚ := (u.filter m).map x with hs
  have hlen : s.length = (u.filter m).length := List.length_map _ _
  have hslen : 2 ≤ s.length := by omega
  have h1 : 1 ≤ s.length := by omega
  have hzlen : (zNum s).length = (u.filter m).length := by
    rw [zNum_length, hlen]
  have hvpos : 0 < rankVar s := rankVar_pos s hslen
  have hvR : (0 : ℝ) < ((rankVar s : ℚ) : ℝ) := by exact_mod_cast hvpos
  have hsd2 : sd ^ 2 = ((rankVar s : ℚ) : ℝ) := by
    rw [hsd]
    exact Real.sq_sqrt hvR.le
  have hmaplen : ((zNum s).map (fun c : ℚ => (c : ℝ) / sd)).length = s.length := by
    rw [List.length_map, zNum_length]
  have hsum0 : ((zNum s).map (fun c : ℚ => (c : ℝ) / sd)).sum = 0 := by
    rw [sum_map_div_cast, zNum_sum s h1]
    simp
  have hmean0 : ((zNum s).map (fun c : ℚ => (c : ℝ) / sd)).sum /
      (((zNum s).map (fun c : ℚ => (c : ℝ) / sd)).length : ℝ) = 0 := by
    rw [hsum0, zero_div]
  refine ⟨?_, ?_, ?_, hmean0, ?_⟩
  · rw [hN]
    exact List.map_fst_zip _ _ (le_of_eq hzlen.symm)
  · rw [hN]
    exact List.map_snd_zip _ _ (le_of_eq hzlen)
  · intro a hau hma hmem
    rw [hN, List.map_fst_zip _ _ (le_of_eq hzlen.symm), List.mem_filter]
      at hmem
    rw [hma] at hmem
    exact Bool.false_ne_true hmem.2
  · rw [hmean0]
    simp only [sub_zero]
    rw [sq_sum_of_z, zNum_sq_sum_eq_var_mul s h1, hsd2, hmaplen]
    have hnr : (s.length : ℝ) ≠ 0 := by
      have hz : s.length ≠ 0 := by omega
      exact_mod_cast hz
    push_cast
    field_simp

/-- The masked identity snapshot over the universe 0, 1, 2 used as a
concrete normalizer input. -/
def wSnap : List ℚ := ([0, 1, 2].filter (fun _ : ℕ => true)).map (fun a : ℕ => (a : ℚ))

/-- Witness for C2 (amended) on the three-asset universe 0, 1, 2 with
the identity snapshot, all assets masked. -/
theorem normalizer_standardization_witness :
    (2 ≤ ([0, 1, 2].filter (fun _ : ℕ => true)).length) ∧
    (((normalizeF [0, 1, 2] (fun _ => true)
        (fun b : ℕ => some ((b : ℚ)))).map Prod.fst =
      [0, 1, 2].filter (fun _ : ℕ => true)) ∧
    ((normalizeF [0, 1, 2] (fun _ => true)
        (fun b : ℕ => some ((b : ℚ)))).map Prod.snd = zNum wSnap) ∧
    (∀ a ∈ [0, 1, 2], (fun _ : ℕ => true) a = false →
      a ∉ (normalizeF [0, 1, 2] (fun _ => true)
        (fun b : ℕ => some ((b : ℚ)))).map Prod.fst) ∧
    ((zNum wSnap).map (fun c : ℚ =>
      (c : ℝ) / Real.sqrt ((rankVar wSnap : ℚ) : ℝ))).sum /
      (((zNum wSnap).map (fun c : ℚ =>
        (c : ℝ) / Real.sqrt ((rankVar wSnap : ℚ) : ℝ))).length : ℝ) = 0 ∧
    (((zNum wSnap).map (fun c : ℚ =>
        (c : ℝ) / Real.sqrt ((rankVar wSnap : ℚ) : ℝ))).map
      (fun z => (z - ((zNum wSnap).map (fun c : ℚ =>
          (c : ℝ) / Real.sqrt ((rankVar wSnap : ℚ) : ℝ))).sum /
        (((zNum wSnap).map (fun c : ℚ =>
          (c : ℝ) / Real.sqrt ((rankVar wSnap : ℚ) : ℝ))).length : ℝ)) ^ 2)).sum /
      (((zNum wSnap).map (fun c : ℚ =>
        (c : ℝ) / Real.sqrt ((rankVar wSnap : ℚ) : ℝ))).length : ℝ) = 1) :=
  ⟨by decide, normalizer_standardization [0, 1, 2] (fun _ => true)
    (fun a : ℕ => (a : ℚ)) (by decide) _ rfl _ rfl⟩

/-- The single-asset masked snapshot (universe consisting of asset 0
alone, all assets masked, snapshot value 5). -/
def cexSnap : List ℚ := ([0].filter (fun _ : ℕ => true)).map (fun _ : ℕ => (5 : ℚ))

/-- C2 counterexample: on a non-empty single-asset mask the normalizer
output is one z-score whose population variance is 0, not 1: the
standardization invariant fails for the claim as stated over every
non-empty mask. -/
theorem normalizer_singleton_var_not_one :
    1 ≤ cexSnap.length ∧
    ¬ ((((zNum cexSnap).map (fun c : ℚ =>
          (c : ℝ) / Real.sqrt ((rankVar cexSnap : ℚ) : ℝ))).map
        (fun z => (z - ((zNum cexSnap).map (fun c : ℚ =>
            (c : ℝ) / Real.sqrt ((rankVar cexSnap : ℚ) : ℝ))).sum /
          (((zNum cexSnap).map (fun c : ℚ =>
            (c : ℝ) / Real.sqrt ((rankVar cexSnap : ℚ) : ℝ))).length : ℝ)) ^ 2)).sum /
      (((zNum cexSnap).map (fun c : ℚ =>
        (c : ℝ) / Real.sqrt ((rankVar cexSnap : ℚ) : ℝ))).length : ℝ) = 1) := by
  have hs : cexSnap = [(5 : ℚ)] := rfl
  have hr : ranksOf [(5 : ℚ)] = [1] := by decide
  have hm : rankMean [(5 : ℚ)] = 1 := by
    simp [rankMean, hr]
  have hz : zNum [(5 : ℚ)] = [0] := by
    simp [zNum, hr, hm]
  have hv : rankVar [(5 : ℚ)] = 0 := by
    simp [rankVar, hz]
  constructor
  · decide
  · rw [hs, hz, hv]
    norm_num

/-! ### Signal Combiner

The combined factor at source lines 94-98 sums the three normalized
factors with the pipeline expression algebra, a platform primitive.
Modelled from the spec (section 4.3): elementwise sum over the strict
intersection of the three ranked-factor mappings. -/

/-- Modelled from the spec: the Signal Combiner on three ranked-factor
mappings, viewed as partial maps from assets to normalized scores. An
asset present in all three inputs gets the sum of its three scores; an
asset missing from any input is absent from the combined output. -/
def combine3 (f g q : ℕ → Option ℚ) (a : ℕ) : Option ℚ :=
  match f a, g a, q a with
  | some x, some y, some z => some (x + y + z)
  | _, _, _ => none

/-- C3: the Signal Combiner output for an asset present in all three
inputs is the exact sum of its three normalized factor values, and an
asset missing from any one input is absent from the combined output. -/
theorem combiner_sum_and_intersection (f g q : ℕ → Option ℚ) (a : ℕ) :
    (∀ x y z : ℚ, f a = some x → g a = some y → q a = some z →
      combine3 f g q a = some (x + y + z)) ∧
    ((f a = none ∨ g a = none ∨ q a = none) → combine3 f g q a = none) := by
  constructor
  · intro x y z hx hy hz
    unfold combine3
    rw [hx, hy, hz]
  · intro h
    unfold combine3
    rcases h with h | h | h <;> rw [h] <;>
      cases f a <;> cases g a <;> cases q a <;> rfl

/-- Witness for C3 on concrete three-factor data over assets 0 and 1,
where asset 1 is missing from the third factor. -/
theorem combiner_sum_and_intersection_witness :
    combine3 (fun _ => some 1) (fun _ => some 2)
      (fun a => if a = 0 then some 3 else none) 0 = some (1 + 2 + 3) ∧
    combine3 (fun _ => some 1) (fun _ => some 2)
      (fun a => if a = 0 then some 3 else none) 1 = none :=
  ⟨(combiner_sum_and_intersection (fun _ => some 1) (fun _ => some 2)
      (fun a => if a = 0 then some 3 else none) 0).1 1 2 3 rfl rfl rfl,
   (combiner_sum_and_intersection (fun _ => some 1) (fun _ => some 2)
      (fun a => if a = 0 then some 3 else none) 1).2 (Or.inr (Or.inr rfl))⟩

/-! ### Selector

The top and bottom filters at source lines 102-103 are platform
primitives. Modelled from the spec (section 4.4): sort the universe by
combined rank descending, take the top L as Longs and the bottom S as
Shorts. -/

/-- Modelled from the spec: the descending comparison on combined-rank
entries used by the Selector sort. -/
def rkGE (p q : ℕ × ℚ) : Prop := q.2 ≤ p.2

instance : DecidableRel rkGE := fun p q =>
  inferInstanceAs (Decidable (q.2 ≤ p.2))

instance : IsTotal (ℕ × ℚ) rkGE := ⟨fun p q => le_total q.2 p.2⟩

instance : IsTrans (ℕ × ℚ) rkGE := ⟨fun _ _ _ h1 h2 => le_trans h2 h1⟩

/-- Modelled from the spec: the universe sorted by combined rank value
descending. -/
def sortDesc (cr : List (ℕ × ℚ)) : List (ℕ × ℚ) := List.insertionSort rkGE cr

/-- Modelled from the spec: the Longs selection, the top L assets of
the descending sort. -/
def longsOf (cr : List (ℕ × ℚ)) (L : ℕ) : List ℕ :=
  ((sortDesc cr).take L).map Prod.fst

/-- Modelled from the spec: the Shorts selection, the bottom S assets
of the descending sort. -/
def shortsOf (cr : List (ℕ × ℚ)) (S : ℕ) : List ℕ :=
  ((sortDesc cr).reverse.take S).map Prod.fst

/-- The combined rank of an asset in a combined-rank table (0 when the
asset is absent). -/
def crVal (cr : List (ℕ × ℚ)) (a : ℕ) : ℚ := (cr.lookup a).getD 0

theorem sortDesc_perm (cr : List (ℕ × ℚ)) : (sortDesc cr).Perm cr :=
  List.perm_insertionSort rkGE cr

theorem sortDesc_length (cr : List (ℕ × ℚ)) :
    (sortDesc cr).length = cr.length :=
  (sortDesc_perm cr).length_eq

theorem longsOf_length (cr : List (ℕ × ℚ)) (L : ℕ) :
    (longsOf cr L).length = min L cr.length := by
  unfold longsOf
  rw [List.length_map, List.length_take, sortDesc_length]

theorem shortsOf_length (cr : List (ℕ × ℚ)) (S : ℕ) :
    (shortsOf cr S).length = min S cr.length := by
  unfold shortsOf
  rw [List.length_map, List.length_take, List.length_reverse,
      sortDesc_length]

theorem lookup_of_mem_nodup {cr : List (ℕ × ℚ)} {a : ℕ} {v : ℚ}
    (hnd : (cr.map Prod.fst).Nodup) (hm : (a, v) ∈ cr) :
    cr.lookup a = some v := by
  induction cr with
  | nil => simp at hm
  | cons p tl ih =>
    rw [List.map_cons, List.nodup_cons] at hnd
    rcases List.mem_cons.mp hm with heq | htl
    · rw [← heq]
      simp [List.lookup]
    · have hne : (a == p.1) = false := by
        rw [beq_eq_false_iff_ne]
        intro hap
        exact hnd.1 (hap ▸ List.mem_map_of_mem Prod.fst htl)
      obtain ⟨k, w⟩ := p
      rw [List.lookup]
      rw [hne]
      exact ih hnd.2 htl

theorem crVal_of_mem {cr : List (ℕ × ℚ)} {p : ℕ × ℚ}
    (hnd : (cr.map Prod.fst).Nodup) (hm : p ∈ cr) : crVal cr p.1 = p.2 := by
  unfold crVal
  rw [lookup_of_mem_nodup hnd hm]
  rfl

/-- C4: for every combined-rank table with distinct assets and target
sizes L and S, at most L longs and at most S shorts are selected, and
whenever L + S is at most the universe size the longs and shorts are
disjoint and every selected long has combined rank at least that of
every universe asset not selected as a long. -/
theorem selector_top_bottom (cr : List (ℕ × ℚ)) (L S : ℕ)
    (hnd : (cr.map Prod.fst).Nodup) :
    (longsOf cr L).length ≤ L ∧
    (shortsOf cr S).length ≤ S ∧
    (L + S ≤ cr.length →
      (∀ a ∈ longsOf cr L, a ∉ shortsOf cr S) ∧
      (∀ a ∈ longsOf cr L, ∀ b ∈ cr.map Prod.fst, b ∉ longsOf cr L →
        crVal cr b ≤ crVal cr a)) := by
  have hndl : ((sortDesc cr).map Prod.fst).Nodup :=
    (((sortDesc_perm cr).map Prod.fst).symm).nodup hnd
  refine ⟨?_, ?_, ?_⟩
  · rw [longsOf_length]
    exact min_le_left _ _
  · rw [shortsOf_length]
    exact min_le_left _ _
  intro hLS
  have hlen : (sortDesc cr).length = cr.length := sortDesc_length cr
  constructor
  · intro a haL haS
    obtain ⟨pa, hpaT, hpa1⟩ := List.mem_map.mp haL
    obtain ⟨pb, hpbT, hpb1⟩ := List.mem_map.mp haS
    rw [List.take_reverse] at hpbT
    have hpbD : pb ∈ (sortDesc cr).drop ((sortDesc cr).length - S) :=
      List.mem_reverse.mp hpbT
    have hpaT2 : pa ∈ ((sortDesc cr).take ((sortDesc cr).length - S)).take L := by
      rw [List.take_take]
      have hmin : min L ((sortDesc cr).length - S) = L := by
        rw [hlen]
        omega
      rw [hmin]
      exact hpaT
    have hpaT3 : pa ∈ (sortDesc cr).take ((sortDesc cr).length - S) :=
      List.take_subset _ _ hpaT2
    have hdisj : List.Disjoint
        (((sortDesc cr).take ((sortDesc cr).length - S)).map Prod.fst)
        (((sortDesc cr).drop ((sortDesc cr).length - S)).map Prod.fst) := by
      have hsplit := List.take_append_drop ((sortDesc cr).length - S) (sortDesc cr)
      have hnd2 := hndl
      rw [← hsplit, List.map_append, List.nodup_append] at hnd2
      exact hnd2.2.2
    have h1 : a ∈ (((sortDesc cr).take ((sortDesc cr).length - S)).map Prod.fst) := by
      rw [← hpa1]
      exact List.mem_map_of_mem Prod.fst hpaT3
    have h2 : a ∈ (((sortDesc cr).drop ((sortDesc cr).length - S)).map Prod.fst) := by
      rw [← hpb1]
      exact List.mem_map_of_mem Prod.fst hpbD
    exact hdisj h1 h2
  · intro a haL b hbU hbNot
    obtain ⟨pa, hpaT, hpa1⟩ := List.mem_map.mp haL
    obtain ⟨pb, hpbC, hpb1⟩ := List.mem_map.mp hbU
    have hpbl : pb ∈ sortDesc cr := (sortDesc_perm cr).mem_iff.mpr hpbC
    have hpbD : pb ∈ (sortDesc cr).drop L := by
      have hmem : pb ∈ (sortDesc cr).take L ++ (sortDesc cr).drop L := by
        rw [List.take_append_drop]
        exact hpbl
      rcases List.mem_append.mp hmem with hT | hD
      · refine absurd ?_ hbNot
        rw [← hpb1]
        exact List.mem_map_of_mem Prod.fst hT
      · exact hD
    have hsorted : List.Pairwise rkGE (sortDesc cr) :=
      List.sorted_insertionSort rkGE cr
    have hrel : rkGE pa pb := by
      have hsplit := List.take_append_drop L (sortDesc cr)
      have hpw := hsorted
      rw [← hsplit, List.pairwise_append] at hpw
      exact hpw.2.2 pa hpaT pb hpbD
    have hpaC : pa ∈ cr :=
      (sortDesc_perm cr).mem_iff.mp (List.take_subset _ _ hpaT)
    have hva : crVal cr a = pa.2 := hpa1 ▸ crVal_of_mem hnd hpaC
    have hvb : crVal cr b = pb.2 := hpb1 ▸ crVal_of_mem hnd hpbC
    rw [hva, hvb]
    exact hrel

/-- A concrete three-asset combined-rank table. -/
def selCr : List (ℕ × ℚ) := [(0, 3), (1, 2), (2, 1)]

/-- Witness for C4 on the concrete table selCr with L = S = 1. -/
theorem selector_top_bottom_witness :
    (longsOf selCr 1).length ≤ 1 ∧
    (shortsOf selCr 1).length ≤ 1 ∧
    (1 + 1 ≤ selCr.length →
      (∀ a ∈ longsOf selCr 1, a ∉ shortsOf selCr 1) ∧
      (∀ a ∈ longsOf selCr 1, ∀ b ∈ selCr.map Prod.fst,
        b ∉ longsOf selCr 1 → crVal selCr b ≤ crVal selCr a)) :=
  selector_top_bottom selCr 1 1 (by decide)

/-- C5 (amended): when the universe is smaller than the requested
L + S total, the Selector does not fail: it returns min(L, |U|) longs
and min(S, |U|) shorts. The selection is smaller than requested only
on the side whose target exceeds |U|; when L and S each fit but their
sum does not, both selections are full-size and overlap instead. -/
theorem selector_shortfall (cr : List (ℕ × ℚ)) (L S : ℕ)
    (hsmall : cr.length < L + S) :
    (longsOf cr L).length = min L cr.length ∧
    (shortsOf cr S).length = min S cr.length :=
  ⟨longsOf_length cr L, shortsOf_length cr S⟩

/-- Witness for C5 (amended) on the three-asset table with L = S = 2. -/
theorem selector_shortfall_witness :
    (longsOf selCr 2).length = min 2 selCr.length ∧
    (shortsOf selCr 2).length = min 2 selCr.length :=
  selector_shortfall selCr 2 2 (by decide)

/-- C5 counterexample: on the three-asset table with L = S = 2 the
universe (3 assets) is smaller than L + S = 4, yet the Selector
returns a full-size selection on both sides - two longs and two
shorts, which overlap - not a smaller-than-requested one. -/
theorem selector_shortfall_counterexample :
    selCr.length < 2 + 2 ∧
    ¬ ((longsOf selCr 2).length < 2 ∨ (shortsOf selCr 2).length < 2) := by
  constructor
  · decide
  · decide

/-! ### Example scenario (assets A, B, C, D as 0, 1, 2, 3) -/

/-- The momentum z-scores of the example scenario. -/
def momZ8 : ℕ → Option ℚ
  | 0 => some 1
  | 1 => some (1 / 2)
  | 2 => some (-(1 / 2))
  | 3 => some (-1)
  | _ => none

/-- The value z-scores of the example scenario. -/
def valZ8 : ℕ → Option ℚ
  | 0 => some (1 / 5)
  | 1 => some (-(1 / 5))
  | 2 => some (1 / 5)
  | 3 => some (-(1 / 5))
  | _ => none

/-- The quality z-scores of the example scenario (all zero). -/
def qualZ8 : ℕ → Option ℚ
  | 0 => some 0
  | 1 => some 0
  | 2 => some 0
  | 3 => some 0
  | _ => none

/-- The combined rank of the example scenario: the Signal Combiner
applied over the universe 0, 1, 2, 3. -/
def combined8 : List (ℕ × ℚ) :=
  [0, 1, 2, 3].filterMap (fun a =>
    (combine3 momZ8 valZ8 qualZ8 a).map (fun v => (a, v)))

/-- C8: on the example universe with the given momentum, value and
quality z-scores, the Signal Combiner returns 1.2, 0.3, -0.3, -1.2 for
assets 0, 1, 2, 3, and the Selector with L = 1 and S = 1 selects asset
0 as the long and asset 3 as the short. -/
theorem example_scenario :
    combined8 = [(0, 6 / 5), (1, 3 / 10), (2, -(3 / 10)), (3, -(6 / 5))] ∧
    longsOf combined8 1 = [0] ∧ shortsOf combined8 1 = [3] := by
  have hraw : combined8 =
      [(0, 1 + 1 / 5 + 0), (1, 1 / 2 + -(1 / 5) + 0),
       (2, -(1 / 2) + 1 / 5 + 0), (3, -1 + -(1 / 5) + 0)] := rfl
  have hc : combined8 =
      [(0, 6 / 5), (1, 3 / 10), (2, -(3 / 10)), (3, -(6 / 5))] := by
    rw [hraw]
    norm_num
  refine ⟨hc, ?_, ?_⟩
  · rw [hc]
    norm_num [longsOf, sortDesc, List.insertionSort, List.orderedInsert, rkGE]
  · rw [hc]
    norm_num [shortsOf, sortDesc, List.insertionSort, List.orderedInsert, rkGE]

/-! ### The pipeline of make_pipeline and the module constants -/

/-- Source line 34. -/
def NUM_LONG_POSITIONS : ℕ := 300

/-- Source line 35. -/
def NUM_SHORT_POSITIONS : ℕ := 300

/-- Source line 33. -/
def MAX_GROSS_LEVERAGE : ℚ := 1

/-- Source line 42. -/
def MAX_SHORT_POSITION_SIZE : ℚ :=
  2 * 1 / ((NUM_LONG_POSITIONS : ℚ) + (NUM_SHORT_POSITIONS : ℚ))

/-- Source line 43. -/
def MAX_LONG_POSITION_SIZE : ℚ :=
  2 * 1 / ((NUM_LONG_POSITIONS : ℚ) + (NUM_SHORT_POSITIONS : ℚ))

/-- The data snapshot a pipeline run consumes: the asset list in its
stable order, the tradable-universe flag, the per-asset price window,
and the fundamental columns read by make_pipeline. -/
structure PipelineInput where
  univ : List ℕ
  tradable : ℕ → Bool
  close : ℕ → List ℚ
  ebit : ℕ → ℚ
  ev : ℕ → ℚ
  roe : ℕ → ℚ
  marketCap : ℕ → ℚ
  sector : ℕ → ℤ

/-- The universe filter of make_pipeline (source lines 83-85):
QTradableStocksUS, close.latest at least 5 and market cap at least
500000000. -/
def universeF (inp : PipelineInput) (a : ℕ) : Bool :=
  inp.tradable a && decide ((5 : ℚ) ≤ back (inp.close a) 1) &&
    decide ((500000000 : ℚ) ≤ inp.marketCap a)

/-- The momentum factor snapshot of the pipeline, per asset from its
own price window (source line 71). -/
def momFactor (inp : PipelineInput) (a : ℕ) : Option ℚ :=
  momentumCompute (inp.close a)

/-- The value factor ebit / enterprise_value (source line 74),
undefined where the denominator is zero. -/
def valFactor (inp : PipelineInput) (a : ℕ) : Option ℚ :=
  if inp.ev a = 0 then none else some (inp.ebit a / inp.ev a)

/-- The quality factor roe (source line 75). -/
def qualFactor (inp : PipelineInput) (a : ℕ) : Option ℚ :=
  some (inp.roe a)

/-- Modelled from the spec: the combined rank of make_pipeline (source
lines 94-98), built with the platform factor algebra that is not in
this repository. Each factor is rank-normalized over the masked
universe and the three normalized scores are summed over the strict
intersection of the factors. Scores are carried as centered ranks (the
z-score numerators); the omitted factor-wise division by the positive
standard deviation of the cohort ranks rescales each factor but keeps
every score's sign and each factor's cross-sectional ordering. -/
def combinedRank (inp : PipelineInput) : List (ℕ × ℚ) :=
  inp.univ.filterMap (fun a =>
    (combine3
      (fun b => (normalizeF inp.univ (universeF inp) (momFactor inp)).lookup b)
      (fun b => (normalizeF inp.univ (universeF inp) (valFactor inp)).lookup b)
      (fun b => (normalizeF inp.univ (universeF inp) (qualFactor inp)).lookup b)
      a).map (fun v => (a, v)))

/-- One row of the pipeline output: the seven columns of source lines
110-118 for one asset. -/
structure Row where
  asset : ℕ
  isLong : Bool
  isShort : Bool
  combined : ℚ
  quality : ℚ
  value : Option ℚ
  momentum : Option ℚ
  sector : ℤ
deriving DecidableEq

/-- Modelled from the spec: the pipeline output (source lines 100-119).
The screen is the union of the top-300 and bottom-300 filters, so only
screened assets produce rows; each row carries the seven columns. -/
def pipelineOutput (inp : PipelineInput) : List Row :=
  (inp.univ.filter (fun a =>
      decide (a ∈ longsOf (combinedRank inp) NUM_LONG_POSITIONS) ||
      decide (a ∈ shortsOf (combinedRank inp) NUM_SHORT_POSITIONS))).map
    (fun a =>
      ⟨a,
       decide (a ∈ longsOf (combinedRank inp) NUM_LONG_POSITIONS),
       decide (a ∈ shortsOf (combinedRank inp) NUM_SHORT_POSITIONS),
       crVal (combinedRank inp) a,
       inp.roe a,
       valFactor inp a,
       momFactor inp a,
       inp.sector a⟩)

/-- The full calculator, normalizer, combiner and selector chain on one
snapshot: the combined rank with the Longs and Shorts selections. -/
def runPipeline (inp : PipelineInput) :
    List (ℕ × ℚ) × List ℕ × List ℕ :=
  (combinedRank inp,
   longsOf (combinedRank inp) NUM_LONG_POSITIONS,
   shortsOf (combinedRank inp) NUM_SHORT_POSITIONS)

/-- C7: the pipeline is deterministic: any two runs on one identical
input snapshot produce identical combined rank, Longs and Shorts. -/
theorem pipeline_deterministic (inp : PipelineInput)
    (r1 r2 : List (ℕ × ℚ) × List ℕ × List ℕ)
    (h1 : r1 = runPipeline inp) (h2 : r2 = runPipeline inp) : r1 = r2 := by
  rw [h1, h2]

/-- A 252-day window of constant price 10. -/
def tenSeries : List ℚ := List.replicate 252 10

/-- A concrete one-asset snapshot passing every universe filter. -/
def inp0 : PipelineInput :=
  ⟨[0], fun _ => true, fun _ => tenSeries, fun _ => 7, fun _ => 1,
   fun _ => 3, fun _ => 500000000, fun a => (a : ℤ)⟩

/-- Witness for C7: two runs on the concrete snapshot inp0 agree. -/
theorem pipeline_deterministic_witness :
    runPipeline inp0 = runPipeline inp0 :=
  pipeline_deterministic inp0 (runPipeline inp0) (runPipeline inp0) rfl rfl

/-- C10: every row of the pipeline output belongs to the union of the
Longs and Shorts selections: the columns handed onward cover selected
assets only, never the full universe. -/
theorem pipeline_output_in_selection (inp : PipelineInput) (r : Row)
    (hr : r ∈ pipelineOutput inp) :
    r.asset ∈ longsOf (combinedRank inp) NUM_LONG_POSITIONS ∨
    r.asset ∈ shortsOf (combinedRank inp) NUM_SHORT_POSITIONS := by
  unfold pipelineOutput at hr
  obtain ⟨a, ha, rfl⟩ := List.mem_map.mp hr
  rw [List.mem_filter] at ha
  have hcond := ha.2
  rw [Bool.or_eq_true, decide_eq_true_iff, decide_eq_true_iff] at hcond
  exact hcond

theorem ranksOf_singleton (v : ℚ) : ranksOf [v] = [1] := by
  unfold ranksOf rankAt
  rw [List.length_singleton]
  have hr1 : List.range 1 = [0] := rfl
  rw [hr1]
  rw [List.map_cons, List.map_nil]
  have hflt : (Finset.range 1).filter (fun j => rkBefore [v] j 0) = ∅ := by
    rw [Finset.range_one, Finset.filter_singleton]
    rw [if_neg (rkBefore_irrefl [v] 0)]
  rw [hflt]
  rfl

theorem rankMean_singleton (v : ℚ) : rankMean [v] = 1 := by
  unfold rankMean
  rw [ranksOf_singleton]
  norm_num

theorem zNum_singleton (v : ℚ) : zNum [v] = [0] := by
  unfold zNum
  rw [ranksOf_singleton, rankMean_singleton]
  norm_num

theorem normalizeF_singleton (a : ℕ) (m : ℕ → Bool) (x : ℕ → Option ℚ)
    (hm : m a = true) (hx : (x a).isSome = true) :
    normalizeF [a] m x = [(a, 0)] := by
  unfold normalizeF
  have hfil : [a].filter (fun b => m b && (x b).isSome) = [a] := by
    rw [List.filter_cons]
    rw [hm, hx]
    rfl
  rw [hfil]
  simp only [List.map_cons, List.map_nil, zNum_singleton]
  rfl

theorem momFactor_inp0 : momFactor inp0 0 = some 0 := by
  have hb252 : back tenSeries 252 = 10 := by decide
  have hb21 : back tenSeries 21 = 10 := by decide
  have hb1 : back tenSeries 1 = 10 := by decide
  have hclose : inp0.close 0 = tenSeries := rfl
  unfold momFactor momentumCompute
  rw [hclose, hb252, hb21, hb1]
  norm_num

theorem valFactor_inp0 : valFactor inp0 0 = some 7 := by
  unfold valFactor
  have hev : inp0.ev 0 = 1 := rfl
  have heb : inp0.ebit 0 = 7 := rfl
  rw [hev, heb]
  norm_num

theorem combinedRank_inp0 : combinedRank inp0 = [(0, 0)] := by
  have hu : universeF inp0 0 = true := by decide
  have hm : normalizeF [0] (universeF inp0) (momFactor inp0) = [(0, 0)] :=
    normalizeF_singleton 0 _ _ hu (by rw [momFactor_inp0]; rfl)
  have hv : normalizeF [0] (universeF inp0) (valFactor inp0) = [(0, 0)] :=
    normalizeF_singleton 0 _ _ hu (by rw [valFactor_inp0]; rfl)
  have hq : normalizeF [0] (universeF inp0) (qualFactor inp0) = [(0, 0)] :=
    normalizeF_singleton 0 _ _ hu rfl
  have huniv : inp0.univ = [0] := rfl
  unfold combinedRank
  rw [huniv, hm, hv, hq]
  have hcomb : combine3 (fun b => List.lookup b [(0, 0)])
      (fun b => List.lookup b [(0, 0)]) (fun b => List.lookup b [(0, 0)])
      0 = some ((0 : ℚ) + 0 + 0) := by
    unfold combine3
    rfl
  rw [List.filterMap_cons]
  rw [hcomb]
  norm_num

theorem pipelineOutput_inp0 :
    pipelineOutput inp0 = [⟨0, true, true, 0, 3, some 7, some 0, 0⟩] := by
  have hcr := combinedRank_inp0
  have hlong : longsOf [((0 : ℕ), (0 : ℚ))] NUM_LONG_POSITIONS = [0] := by decide
  have hshort : shortsOf [((0 : ℕ), (0 : ℚ))] NUM_SHORT_POSITIONS = [0] := by decide
  have hcv : crVal [((0 : ℕ), (0 : ℚ))] 0 = 0 := by decide
  unfold pipelineOutput
  rw [hcr]
  have huniv : inp0.univ = [0] := rfl
  rw [huniv, hlong, hshort]
  rw [List.filter_cons]
  norm_num [hcv, valFactor_inp0, momFactor_inp0]
  exact ⟨by decide, rfl, rfl⟩

/-- Witness for C10: the single row produced by the concrete snapshot
inp0 names an asset in the union of the Longs and Shorts selections. -/
theorem pipeline_output_in_selection_witness :
    (⟨0, true, true, 0, 3, some 7, some 0, 0⟩ : Row).asset ∈
      longsOf (combinedRank inp0) NUM_LONG_POSITIONS ∨
    (⟨0, true, true, 0, 3, some 7, some 0, 0⟩ : Row).asset ∈
      shortsOf (combinedRank inp0) NUM_SHORT_POSITIONS :=
  pipeline_output_in_selection inp0 ⟨0, true, true, 0, 3, some 7, some 0, 0⟩
    (by rw [pipelineOutput_inp0]; exact List.mem_singleton.mpr rfl)

/-! ### rebalance and the undefined name MAX_SECTOR_EXPOSURE -/

/-- The names bound at the top level of the module: the imports of
source lines 18-30 and the assignments, class and function statements
of lines 33-217. MAX_SECTOR_EXPOSURE is not among them, and it is not a
Python builtin. -/
def moduleTopLevelNames : List String :=
  ["attach_pipeline", "pipeline_output", "order_optimal_portfolio",
   "Pipeline", "CustomFactor", "SimpleMovingAverage", "AverageDollarVolume",
   "RollingLinearRegressionOfReturns", "USEquityPricing", "Fundamentals",
   "IsPrimaryShare", "Sector", "np", "pd", "opt", "QTradableStocksUS",
   "risk_loading_pipeline", "MAX_GROSS_LEVERAGE", "NUM_LONG_POSITIONS",
   "NUM_SHORT_POSITIONS", "MAX_SHORT_POSITION_SIZE", "MAX_LONG_POSITION_SIZE",
   "Momentum", "make_pipeline", "initialize", "before_trading_start",
   "recording_statements", "rebalance"]

/-- A global name resolves when the module top level binds it. -/
def definedName (n : String) : Bool := moduleTopLevelNames.contains n

/-- What one call of rebalance left behind: the objective, the
constraint list built so far, whether order_optimal_portfolio ran, and
the error that stopped the call, if any. -/
structure RebalanceTrace where
  objective : Option String
  constraints : List String
  orderSubmitted : Bool
  error : Option String
deriving DecidableEq

/-- Embedding of rebalance (source lines 162-217) over the pipeline
data it reads. The body builds the MaximizeAlpha objective, appends the
MaxGrossLeverage and DollarNeutral constraints, and then evaluates the
arguments of the sector-neutrality constraint; every module-level
constant read is a global name lookup, and an unresolved name stops
the call with a NameError before anything later runs. -/
def rebalance (pipelineData : List (ℕ × ℚ)) : RebalanceTrace :=
  let objective := some "MaximizeAlpha"
  let cs : List String := []
  if definedName "MAX_GROSS_LEVERAGE" then
    let cs := cs ++ ["MaxGrossLeverage"]
    let cs := cs ++ ["DollarNeutral"]
    if definedName "MAX_SECTOR_EXPOSURE" then
      let cs := cs ++ ["NetPartitionExposure"]
      let cs := cs ++ ["RiskModelExposure"]
      if definedName "MAX_SHORT_POSITION_SIZE" &&
          definedName "MAX_LONG_POSITION_SIZE" then
        let cs := cs ++ ["PositionConcentration"]
        ⟨objective, cs, true, none⟩
      else
        ⟨objective, cs, false,
         some "NameError: name MAX_SHORT_POSITION_SIZE is not defined"⟩
    else
      ⟨objective, cs, false,
       some "NameError: name MAX_SECTOR_EXPOSURE is not defined"⟩
  else
    ⟨objective, cs, false,
     some "NameError: name MAX_GROSS_LEVERAGE is not defined"⟩

/-- C9: every invocation of rebalance stops with a NameError on
MAX_SECTOR_EXPOSURE before the sector-neutrality constraint is
constructed - only the two earlier constraints exist - and no order is
ever submitted. -/
theorem rebalance_name_error (pipelineData : List (ℕ × ℚ)) :
    (rebalance pipelineData).error =
      some "NameError: name MAX_SECTOR_EXPOSURE is not defined" ∧
    (rebalance pipelineData).constraints =
      ["MaxGrossLeverage", "DollarNeutral"] ∧
    "NetPartitionExposure" ∉ (rebalance pipelineData).constraints ∧
    (rebalance pipelineData).orderSubmitted = false := by
  have h : rebalance pipelineData =
      ⟨some "MaximizeAlpha", ["MaxGrossLeverage", "DollarNeutral"], false,
       some "NameError: name MAX_SECTOR_EXPOSURE is not defined"⟩ := by
    unfold rebalance definedName moduleTopLevelNames
    norm_num
    decide
  rw [h]
  refine ⟨rfl, rfl, ?_, rfl⟩
  decide

end LongShortEquity
